import Mathlib

/-!
Verification of the Data Quality Drift Detection Engine and the Model
Registry versioning/lineage subsystem of the MLOps platform, together
with the inference UI's risk-level classification.

The drift engine and the registry are specified in the repository's
design documents; the shipped code contains their UI callers.  The
definitions below therefore embed the specified behaviour directly:
each such definition carries a doc comment starting with
`Modelled from the spec:`.  The risk-level classification is embedded
from `frontend` inference pipeline component source.
-/

namespace MLOps

/-! ### Tabular data model -/

/-- Modelled from the spec: a cell of a tabular dataset snapshot is
missing, a numeric value, or a categorical (string) value. -/
inductive Cell
  | missing
  | num (q : ℚ)
  | cat (s : String)
  deriving DecidableEq, Repr

/-- Modelled from the spec: a named column of the tabular dataset
reader exposed by the pipeline collaborator. -/
structure Column where
  name : String
  cells : List Cell
  deriving DecidableEq, Repr

/-- Modelled from the spec: a dataset snapshot is a list of columns. -/
abbrev Dataset := List Column

/-- Modelled from the spec: declared feature type, a tagged variant
resolved once at baseline-build time. -/
inductive FType
  | numeric
  | categorical
  deriving DecidableEq, Repr

/-- The numeric values of a list of cells, in order. -/
def numericVals (cells : List Cell) : List ℚ :=
  cells.filterMap fun c =>
    match c with
    | .num q => some q
    | _ => none

/-- The categorical values of a list of cells, in order. -/
def catVals (cells : List Cell) : List String :=
  cells.filterMap fun c =>
    match c with
    | .cat s => some s
    | _ => none

/-- Count of missing cells. -/
def missingCount (cells : List Cell) : ℕ :=
  cells.countP fun c => c == Cell.missing

/-! ### Baseline statistics -/

/-- Number of histogram buckets used for numeric features. -/
def numBuckets : ℕ := 10

/-- Bucket index of a value for a fixed-width histogram starting at
`lo` with bucket width `width`; values outside the range are clamped
into the first/last bucket so that every value is counted. -/
def bucketIdx (lo width v : ℚ) : ℕ :=
  if width ≤ 0 then 0
  else Int.toNat (min (Int.floor ((v - lo) / width)) (numBuckets - 1 : ℤ))

/-- Histogram bucket counts of a list of values over fixed edges. -/
def countBuckets (lo width : ℚ) (vals : List ℚ) : List ℕ :=
  (List.range numBuckets).map fun i => vals.countP fun v => bucketIdx lo width v == i

/-- Arithmetic mean (0 for an empty list). -/
def meanQ (vals : List ℚ) : ℚ :=
  if vals.length = 0 then 0 else vals.sum / vals.length

/-- Population variance (square of the specified population std-dev is
kept instead of the std-dev itself so the statistics stay in exact
rational arithmetic). -/
def varPopQ (vals : List ℚ) : ℚ :=
  if vals.length = 0 then 0
  else (vals.map fun v => (v - meanQ vals) ^ 2).sum / vals.length

/-- Minimum of a list of rationals (0 for an empty list). -/
def minQ (vals : List ℚ) : ℚ :=
  match vals with
  | [] => 0
  | v :: rest => rest.foldr min v

/-- Maximum of a list of rationals (0 for an empty list). -/
def maxQ (vals : List ℚ) : ℚ :=
  match vals with
  | [] => 0
  | v :: rest => rest.foldr max v

/-- Value → frequency mapping of a list of categorical values, in first
occurrence order. -/
def valueCounts (vs : List String) : List (String × ℕ) :=
  vs.dedup.map fun s => (s, vs.count s)

/-- Modelled from the spec: the per-feature statistics shape — numeric
features carry mean, population variance, min, max, and a fixed-width
histogram (base `mn`, bucket width `width`, bucket counts); categorical
features carry a full value→frequency mapping. -/
inductive StatKind
  | numeric (mean varPop mn mx width : ℚ) (counts : List ℕ)
  | categorical (vcs : List (String × ℕ))
  deriving DecidableEq, Repr

/-- Modelled from the spec: FeatureStats — immutable per-feature
statistics computed at baseline-build time. -/
structure FeatureStats where
  name : String
  missing : ℕ
  uniqueCount : ℕ
  kind : StatKind
  deriving DecidableEq, Repr

/-- Modelled from the spec: BaselineStatistics — dataset version,
creation timestamp and the per-feature statistics. -/
structure BaselineStatistics where
  datasetVersion : String
  timestamp : ℕ
  features : List FeatureStats
  deriving DecidableEq, Repr

/-- Modelled from the spec: ValidationError cases rejected before
computation. -/
inductive VErr
  | emptyDataset
  | featureAbsent (name : String)
  | typeMismatch (name : String)
  deriving DecidableEq, Repr

/-- Look a column up by name. -/
def findColumn (d : Dataset) (nm : String) : Option Column :=
  d.find? fun c => c.name == nm

/-- The cells of the named column of a batch (empty when absent). -/
def batchCells (d : Dataset) (nm : String) : List Cell :=
  match findColumn d nm with
  | none => []
  | some c => c.cells

/-- Whether a cell is categorical. -/
def isCat (c : Cell) : Bool :=
  match c with
  | .cat _ => true
  | _ => false

/-- Whether a cell is numeric. -/
def isNum (c : Cell) : Bool :=
  match c with
  | .num _ => true
  | _ => false

/-- Modelled from the spec: build the FeatureStats of one declared
feature; ValidationError when the feature is absent from the dataset or
its observed values are incompatible with its declared type. -/
def buildFeature (d : Dataset) (nm : String) (ft : FType) : Except VErr FeatureStats :=
  match findColumn d nm with
  | none => .error (.featureAbsent nm)
  | some col =>
    match ft with
    | .numeric =>
      if col.cells.any isCat then .error (.typeMismatch nm)
      else
        .ok { name := nm
              missing := missingCount col.cells
              uniqueCount := (numericVals col.cells).dedup.length
              kind := .numeric (meanQ (numericVals col.cells)) (varPopQ (numericVals col.cells))
                (minQ (numericVals col.cells)) (maxQ (numericVals col.cells))
                ((maxQ (numericVals col.cells) - minQ (numericVals col.cells)) / (numBuckets : ℚ))
                (countBuckets (minQ (numericVals col.cells))
                  ((maxQ (numericVals col.cells) - minQ (numericVals col.cells)) / (numBuckets : ℚ))
                  (numericVals col.cells)) }
    | .categorical =>
      if col.cells.any isNum then .error (.typeMismatch nm)
      else
        .ok { name := nm
              missing := missingCount col.cells
              uniqueCount := (catVals col.cells).dedup.length
              kind := .categorical (valueCounts (catVals col.cells)) }

/-- Build the FeatureStats of every declared feature, failing on the
first ValidationError. -/
def buildFeatures (d : Dataset) : List (String × FType) → Except VErr (List FeatureStats)
  | [] => .ok []
  | (nm, ft) :: rest => do
    let f ← buildFeature d nm ft
    let fs ← buildFeatures d rest
    .ok (f :: fs)

/-- Modelled from the spec: `buildBaseline(dataset, featureTypes)` —
produce one FeatureStats per declared feature; ValidationError when the
dataset is empty; deterministic apart from the stored timestamp. -/
def buildBaseline (d : Dataset) (fts : List (String × FType)) (dv : String) (ts : ℕ) :
    Except VErr BaselineStatistics :=
  if d.isEmpty then .error .emptyDataset
  else (buildFeatures d fts).map fun feats =>
    { datasetVersion := dv, timestamp := ts, features := feats }

/-! ### Drift detection -/

/-- Modelled from the spec: the natural logarithm used by the PSI
formula, abstracted as any monotone function vanishing at 1 — exactly
the properties of `ln` the drift contract relies on; this keeps every
statistic in exact, decidable rational arithmetic. -/
structure LogModel where
  log : ℚ → ℚ
  mono : ∀ x y : ℚ, x ≤ y → log x ≤ log y
  log_one : log 1 = 0

/-- Modelled from the spec: the small epsilon (1e-4) both proportions
are floored to before the logarithm, avoiding division by zero or
log(0). -/
def epsFloor : ℚ := 1 / 10000

/-- Floor a proportion to `epsFloor`. -/
def floorProp (q : ℚ) : ℚ := max q epsFloor

/-- Proportion `c / t`, conventionally 0 for an empty population. -/
def propOf (c t : ℕ) : ℚ :=
  if t = 0 then 0 else (c : ℚ) / (t : ℚ)

/-- Bucket proportions of a histogram. -/
def normalize (cs : List ℕ) : List ℚ :=
  cs.map fun c => propOf c cs.sum

/-- One PSI summand: `(curProp − baseProp) · ln(curProp / baseProp)`
with both proportions floored to `epsFloor` before the logarithm. -/
def psiTerm (L : LogModel) (b c : ℚ) : ℚ :=
  (c - b) * L.log (floorProp c / floorProp b)

/-- Modelled from the spec: Population Stability Index over paired
baseline/current bucket proportions. -/
def psi (L : LogModel) : List ℚ → List ℚ → ℚ
  | b :: bs, c :: cs => psiTerm L b c + psi L bs cs
  | _, _ => 0

/-- One chi-square summand `(cur − exp)² / exp`, with the expected
count floored to `epsFloor` so no division by zero occurs. -/
def chiTerm (cur exp : ℚ) : ℚ :=
  (cur - exp) ^ 2 / max exp epsFloor

/-- Modelled from the spec: chi-square goodness-of-fit statistic of the
current category frequencies against the baseline frequencies;
categories present in baseline but absent in the current batch get a
zero count. -/
def chiSq (vcs : List (String × ℕ)) (curVals : List String) : ℚ :=
  (vcs.map fun p =>
    chiTerm (curVals.count p.1 : ℚ)
      (propOf p.2 ((vcs.map fun q => q.2).sum) * (curVals.length : ℚ))).sum

/-- Modelled from the spec: drift configuration — calibratable
per-feature PSI threshold (default 0.2) and chi-square critical values
for the configured significance level, per degree of freedom. -/
structure DriftConfig where
  psiThreshold : String → ℚ
  chiCritical : ℕ → ℚ

/-- Modelled from the spec: 0.05-significance chi-square critical
values by degrees of freedom (3.84 at one degree of freedom), with a
conservative positive fallback beyond the table. -/
def defaultChiCritical (df : ℕ) : ℚ :=
  if df = 1 then 3841 / 1000
  else if df = 2 then 5991 / 1000
  else if df = 3 then 7815 / 1000
  else if df = 4 then 9488 / 1000
  else if df = 5 then 11070 / 1000
  else 3841 / 1000 + 2 * (df : ℚ)

/-- Modelled from the spec: the default configuration — per-feature
PSI threshold 0.2 and the 0.05-significance chi-square critical
values. -/
def defaultConfig : DriftConfig :=
  { psiThreshold := fun _ => 1 / 5
    chiCritical := defaultChiCritical }

/-- Modelled from the spec: per-feature drift statistic against the
current batch — PSI over the reused baseline bucket edges for numeric
features, chi-square against baseline frequencies for categorical
ones. -/
def featureStat (L : LogModel) (batch : Dataset) (fs : FeatureStats) : ℚ :=
  match fs.kind with
  | .numeric _ _ mn _ width counts =>
    psi L (normalize counts)
      (normalize (countBuckets mn width (numericVals (batchCells batch fs.name))))
  | .categorical vcs => chiSq vcs (catVals (batchCells batch fs.name))

/-- The threshold a feature's statistic is compared against: the
per-feature PSI threshold for numeric features, the critical value at
`category count − 1` degrees of freedom for categorical ones. -/
def featureThreshold (cfg : DriftConfig) (fs : FeatureStats) : ℚ :=
  match fs.kind with
  | .numeric _ _ _ _ _ _ => cfg.psiThreshold fs.name
  | .categorical vcs => cfg.chiCritical (vcs.length - 1)

/-- Per-feature statistics-comparison detail of a DriftReport. -/
structure FeatureDriftDetail where
  name : String
  stat : ℚ
  threshold : ℚ
  deriving DecidableEq, Repr

/-- Severity ordering on `(statistic, feature name)` pairs: descending
by statistic, feature name as a deterministic tie-break. -/
def sevLe (p q : ℚ × String) : Prop :=
  q.1 < p.1 ∨ (p.1 = q.1 ∧ p.2 ≤ q.2)

instance : DecidableRel sevLe := fun p q => by
  unfold sevLe; infer_instance

instance : IsTotal (ℚ × String) sevLe := by
  constructor
  intro p q
  rcases lt_trichotomy p.1 q.1 with h | h | h
  · exact Or.inr (Or.inl h)
  · rcases le_total p.2 q.2 with h2 | h2
    · exact Or.inl (Or.inr ⟨h, h2⟩)
    · exact Or.inr (Or.inr ⟨h.symm, h2⟩)
  · exact Or.inl (Or.inl h)

instance : IsTrans (ℚ × String) sevLe := by
  constructor
  rintro p q r (h1 | ⟨h1, h1s⟩) (h2 | ⟨h2, h2s⟩)
  · exact Or.inl (h2.trans h1)
  · exact Or.inl (h2 ▸ h1)
  · exact Or.inl (h1 ▸ h2)
  · exact Or.inr ⟨h1.trans h2, h1s.trans h2s⟩

instance : IsAntisymm (ℚ × String) sevLe := by
  constructor
  rintro ⟨pa, pb⟩ ⟨qa, qb⟩ h1 h2
  simp only [sevLe] at h1 h2
  rcases h1 with h1 | ⟨h1, h1s⟩ <;> rcases h2 with h2 | ⟨h2, h2s⟩
  · exact absurd (h1.trans h2) (lt_irrefl _)
  · cases h2; exact absurd h1 (lt_irrefl _)
  · cases h1; exact absurd h2 (lt_irrefl _)
  · cases h1; cases le_antisymm h1s h2s; rfl

/-- Modelled from the spec: DriftReport — timestamp, baseline version
reference, aggregate drift score, the ordered set of feature names
exceeding their threshold in descending severity order, and per-feature
detail.  (The anomaly list concerns the AnomalyScanner, outside the
properties verified here.) -/
structure DriftReport where
  timestamp : ℕ
  baselineVersion : String
  score : ℚ
  featuresWithDrift : List String
  details : List FeatureDriftDetail
  deriving DecidableEq, Repr

/-- The per-feature detail record for one baseline feature. -/
def featureDetail (L : LogModel) (batch : Dataset) (cfg : DriftConfig)
    (fs : FeatureStats) : FeatureDriftDetail :=
  { name := fs.name
    stat := featureStat L batch fs
    threshold := featureThreshold cfg fs }

/-- The drifted features as `(stat, name)` pairs sorted in descending
severity order. -/
def driftedPairs (details : List FeatureDriftDetail) : List (ℚ × String) :=
  List.insertionSort sevLe
    ((details.filter fun dt => dt.threshold < dt.stat).map fun dt => (dt.stat, dt.name))

/-- Aggregate drift score: the maximum per-feature drift statistic
(worst-feature policy). -/
def aggregateScore (details : List FeatureDriftDetail) : ℚ :=
  (details.map fun dt => dt.stat).foldr max 0

/-- Modelled from the spec: `detectDrift(dataset, baseline, config)` —
one DriftReport per inference batch: per-feature statistics compared
against the reused baseline statistics, worst-feature aggregate score,
and the ordered set of features exceeding their threshold. -/
def detectDrift (L : LogModel) (batch : Dataset) (b : BaselineStatistics)
    (cfg : DriftConfig) (ts : ℕ) : DriftReport :=
  let details := b.features.map (featureDetail L batch cfg)
  { timestamp := ts
    baselineVersion := b.datasetVersion
    score := aggregateScore details
    featuresWithDrift := (driftedPairs details).map fun p => p.2
    details := details }

/-! ### Model registry and lineage -/

/-- Modelled from the spec: an approval decision. -/
inductive Decision
  | approved
  | rejected
  deriving DecidableEq, Repr

/-- Modelled from the spec: ApprovalRecord — the decision together with
the reviewer identity and decision timestamp; a version with no record
is pending. -/
structure ApprovalRecord where
  decision : Decision
  reviewer : String
  decidedAt : ℕ
  deriving DecidableEq, Repr

/-- Modelled from the spec: a ModelVersion record — version identifier,
metrics mapping, dataset/baseline versions used, approval state and a
soft-deletion flag. -/
structure ModelVersionRec where
  version : ℕ
  metrics : List (String × ℚ)
  datasetVersion : String
  baselineVersion : String
  approval : Option ApprovalRecord
  deleted : Bool
  deriving DecidableEq, Repr

/-- Modelled from the spec: LineageRecord — model version reference →
dataset version reference → baseline version reference. -/
structure LineageRecord where
  modelVersion : ℕ
  datasetVersion : String
  baselineVersion : String
  deriving DecidableEq, Repr

/-- Modelled from the spec: the state of one model group in the
registry store — its append-only version history, the active/deployed
pointer, the lineage records, and the known baseline/dataset
versions. -/
structure RegistryState where
  versions : List ModelVersionRec
  active : Option ℕ
  lineage : List LineageRecord
  baselines : List String
  deriving DecidableEq, Repr

/-- Modelled from the spec: registry error taxonomy (NotFoundError,
dependency error, ConflictError). -/
inductive RegErr
  | notFound
  | depend
  | conflict
  deriving DecidableEq, Repr

/-- Look a model version record up by its version identifier. -/
def findVersion (st : RegistryState) (v : ℕ) : Option ModelVersionRec :=
  st.versions.find? fun r => r.version == v

/-- Modelled from the spec: `approve(group, version, decision)` — a
pending version transitions to the decision; re-invoking on an
already-decided version is a strict no-op returning the existing
ApprovalRecord unchanged (reviewer and timestamp are not
overwritten). -/
def approve (st : RegistryState) (v : ℕ) (d : Decision) (reviewer : String) (now : ℕ) :
    Except RegErr (ApprovalRecord × RegistryState) :=
  match findVersion st v with
  | none => .error .notFound
  | some r =>
    match r.approval with
    | some a => .ok (a, st)
    | none =>
      let a : ApprovalRecord := { decision := d, reviewer := reviewer, decidedAt := now }
      .ok (a, { st with
        versions := st.versions.map fun q =>
          if q.version == v then { q with approval := some a } else q })

/-- Modelled from the spec: `rollback(group, targetVersion)` — update
only the group's active/deployed pointer; no new version record. -/
def rollback (st : RegistryState) (v : ℕ) : Except RegErr RegistryState :=
  match findVersion st v with
  | none => .error .notFound
  | some _ => .ok { st with active := some v }

/-- Whether the given model version is deleted (an absent version
counts as deleted). -/
def modelDeleted (st : RegistryState) (v : ℕ) : Bool :=
  match findVersion st v with
  | none => true
  | some r => r.deleted

/-- Whether a lineage record references the given baseline-or-dataset
version. -/
def references (lr : LineageRecord) (bv : String) : Bool :=
  lr.baselineVersion == bv || lr.datasetVersion == bv

/-- Modelled from the spec: `canDelete(baselineOrDatasetVersion)` —
false if any LineageRecord referencing it points to a non-deleted model
version. -/
def canDelete (st : RegistryState) (bv : String) : Bool :=
  st.lineage.all fun lr => !(references lr bv) || modelDeleted st lr.modelVersion

/-- Modelled from the spec: deleting a baseline/dataset version is
rejected with a dependency error while any LineageRecord still
references it from a non-deleted model version; otherwise it is
removed. -/
def deleteBaseline (st : RegistryState) (bv : String) : Except RegErr RegistryState :=
  if canDelete st bv then
    .ok { st with baselines := st.baselines.filter fun b => b != bv }
  else .error .depend

/-- Modelled from the spec: `deleteVersion` — mark a model version
deleted. -/
def deleteVersion (st : RegistryState) (v : ℕ) : Except RegErr RegistryState :=
  match findVersion st v with
  | none => .error .notFound
  | some _ => .ok { st with
      versions := st.versions.map fun q =>
        if q.version == v then { q with deleted := true } else q }

/-- The metric keys of a metrics mapping. -/
def metricKeys (m : List (String × ℚ)) : List String :=
  m.map fun p => p.1

/-- Look a metric up by key. -/
def lookupMetric (m : List (String × ℚ)) (k : String) : Option ℚ :=
  (m.find? fun p => p.1 == k).map fun p => p.2

/-- One row of a side-by-side metrics diff; `none` is the explicit
"missing" marker for a side lacking the key. -/
structure MetricDiffEntry where
  key : String
  left : Option ℚ
  right : Option ℚ
  deriving DecidableEq, Repr

/-- Side-by-side diff over every metric key present in either
mapping. -/
def diffMetrics (ma mb : List (String × ℚ)) : List MetricDiffEntry :=
  ((metricKeys ma ++ metricKeys mb).dedup).map fun k =>
    { key := k, left := lookupMetric ma k, right := lookupMetric mb k }

/-- Modelled from the spec: `compare(group, versionA, versionB)` —
NotFoundError if either version is absent, otherwise the side-by-side
metrics diff with explicit missing markers. -/
def compare (st : RegistryState) (va vb : ℕ) : Except RegErr (List MetricDiffEntry) :=
  match findVersion st va, findVersion st vb with
  | some ra, some rb => .ok (diffMetrics ra.metrics rb.metrics)
  | _, _ => .error .notFound

/-! ### Concurrent version registration

Modelled from the spec: `register` assigns the next version in a
strictly increasing per-group sequence with an atomic compare-and-swap
on the group's current-max-version counter, retrying internally up to a
bounded attempt count and then surfacing ConflictError.  The model is a
small interleaving semantics: each in-flight `register` call is a
process whose atomic actions (read the counter / compare-and-swap) are
scheduled one at a time. -/

/-- Outcome of one `register` call. -/
inductive RegResult
  | ok (v : ℕ)
  | conflict
  deriving DecidableEq, Repr

/-- Modelled from the spec: an in-flight `register` call — the retry
budget left, the counter snapshot read by the current attempt, and the
final outcome once finished. -/
structure RegProc where
  attemptsLeft : ℕ
  snapshot : Option ℕ
  result : Option RegResult
  deriving DecidableEq, Repr

/-- Modelled from the spec: the shared registry counter plus the
in-flight register calls. -/
structure RegSystem where
  counter : ℕ
  procs : List RegProc
  deriving DecidableEq, Repr

/-- One atomic action of one register call against the shared counter:
a finished process does nothing; a process with no snapshot either
surfaces ConflictError (budget exhausted) or reads the counter
(consuming one attempt); a process holding a snapshot performs the
compare-and-swap, succeeding with version `snapshot + 1` exactly when
the counter is still equal to its snapshot. -/
def procStep (counter : ℕ) (p : RegProc) : ℕ × RegProc :=
  match p.result with
  | some _ => (counter, p)
  | none =>
    match p.snapshot with
    | none =>
      match p.attemptsLeft with
      | 0 => (counter, { p with result := some .conflict })
      | a + 1 => (counter, { p with snapshot := some counter, attemptsLeft := a })
    | some s =>
      if counter = s then
        (counter + 1, { p with snapshot := none, result := some (.ok (s + 1)) })
      else (counter, { p with snapshot := none })

/-- Schedule one atomic action of the process at index `i`. -/
def sysStep (sys : RegSystem) (i : ℕ) : RegSystem :=
  match sys.procs[i]? with
  | none => sys
  | some p =>
    let cp := procStep sys.counter p
    { counter := cp.1, procs := sys.procs.set i cp.2 }

/-- Run an arbitrary interleaving, given as the list of scheduled
process indices. -/
def runSched (sys : RegSystem) : List ℕ → RegSystem
  | [] => sys
  | i :: rest => runSched (sysStep sys i) rest

/-- The version identifier a finished, successful register call
received. -/
def procOk (p : RegProc) : Option ℕ :=
  match p.result with
  | some (.ok v) => some v
  | _ => none

/-- The version identifiers handed out to the successful register
calls. -/
def okVersions (sys : RegSystem) : List ℕ :=
  sys.procs.filterMap procOk

/-- The initial system: counter at `c0` and `n` fresh register calls,
each with retry budget `attempts`. -/
def initSystem (c0 n attempts : ℕ) : RegSystem :=
  { counter := c0, procs := List.replicate n { attemptsLeft := attempts, snapshot := none, result := none } }

/-! ### Concrete instances used to exercise the development -/

/-- A concrete LogModel: any monotone function vanishing at 1. -/
def Lw : LogModel :=
  { log := fun x => x - 1
    mono := fun _ _ h => sub_le_sub_right h 1
    log_one := by norm_num }

/-- A concrete two-row categorical dataset. -/
def D2 : Dataset := [{ name := "c", cells := [.cat "A", .cat "B"] }]

/-- The baseline `buildBaseline` produces from `D2`. -/
def B2 : BaselineStatistics :=
  { datasetVersion := "v"
    timestamp := 0
    features := [{ name := "c", missing := 0, uniqueCount := 2
                   kind := .categorical [("A", 1), ("B", 1)] }] }

/-- A concrete numeric FeatureStats. -/
def FN : FeatureStats :=
  { name := "age", missing := 0, uniqueCount := 1, kind := .numeric 0 0 0 0 0 [2] }

/-- A second concrete numeric FeatureStats with a different name. -/
def FN2 : FeatureStats :=
  { name := "bmi", missing := 0, uniqueCount := 1, kind := .numeric 0 0 0 0 0 [3] }

/-- A concrete baseline holding only `FN`. -/
def BN : BaselineStatistics := { datasetVersion := "v", timestamp := 0, features := [FN] }

/-- A concrete pending model version record. -/
def recW : ModelVersionRec :=
  { version := 1, metrics := [("accuracy", 9 / 10)], datasetVersion := "dv"
    baselineVersion := "bv", approval := none, deleted := false }

/-- A second concrete pending model version record. -/
def recW2 : ModelVersionRec :=
  { version := 2, metrics := [("f1", 8 / 10)], datasetVersion := "dv"
    baselineVersion := "bv", approval := none, deleted := false }

/-- A concrete registry state with two versions and one lineage
record. -/
def stw : RegistryState :=
  { versions := [recW, recW2]
    active := none
    lineage := [{ modelVersion := 1, datasetVersion := "dv", baselineVersion := "bv" }]
    baselines := ["bv", "dv"] }

/-- `stw` after its first version has been marked deleted. -/
def stwDel : RegistryState :=
  { stw with versions := [{ recW with deleted := true }, recW2] }

/-- The ApprovalRecord created by the first concrete approve call on
`stw`. -/
def aW : ApprovalRecord := { decision := .approved, reviewer := "r1", decidedAt := 5 }

/-- `stw` after version 1 has been approved with record `aW`. -/
def stA : RegistryState :=
  { stw with versions := [{ recW with approval := some aW }, recW2] }

/-! ### Inference UI risk level -/

/-- Risk level displayed for one prediction. -/
inductive RiskLevel
  | high
  | medium
  | low
  deriving DecidableEq, Repr

/-- The inference UI's risk-level classification of the non-adherence
probability, embedded from the frontend inference pipeline component:
`p > 0.7` is High, otherwise `p > 0.4` is Medium, otherwise Low. -/
def riskLevel (p : ℚ) : RiskLevel :=
  if p > 7 / 10 then .high
  else if p > 4 / 10 then .medium
  else .low

/-! ## Theorems -/

/-- C10: the displayed risk level is a total function of the
non-adherence probability p: it is High exactly when p > 0.7, Medium
exactly when 0.4 < p ≤ 0.7, and Low exactly otherwise (p ≤ 0.4); the
three-way classification is exhaustive and mutually exclusive because
`riskLevel` is a total function into the three-constructor
`RiskLevel`. -/
theorem riskLevel_trichotomy (p : ℚ) :
    (riskLevel p = .high ↔ 7 / 10 < p) ∧
    (riskLevel p = .medium ↔ 4 / 10 < p ∧ p ≤ 7 / 10) ∧
    (riskLevel p = .low ↔ p ≤ 4 / 10) := by
  by_cases h1 : 7 / 10 < p
  · have hr : riskLevel p = .high := by simp [riskLevel, h1]
    refine ⟨⟨fun _ => h1, fun _ => hr⟩, ⟨fun hx => ?_, fun hx => ?_⟩,
      ⟨fun hx => ?_, fun hx => ?_⟩⟩
    · rw [hr] at hx; exact absurd hx (by decide)
    · exact absurd h1 (not_lt_of_le hx.2)
    · rw [hr] at hx; exact absurd hx (by decide)
    · linarith
  · by_cases h2 : 4 / 10 < p
    · have hr : riskLevel p = .medium := by simp [riskLevel, h1, h2]
      refine ⟨⟨fun hx => ?_, fun hx => ?_⟩, ⟨fun _ => ⟨h2, le_of_not_lt h1⟩, fun _ => hr⟩,
        ⟨fun hx => ?_, fun hx => ?_⟩⟩
      · rw [hr] at hx; exact absurd hx (by decide)
      · exact absurd hx h1
      · rw [hr] at hx; exact absurd hx (by decide)
      · exact absurd h2 (not_lt_of_le hx)
    · have hr : riskLevel p = .low := by simp [riskLevel, h1, h2]
      refine ⟨⟨fun hx => ?_, fun hx => ?_⟩, ⟨fun hx => ?_, fun hx => ?_⟩,
        ⟨fun _ => le_of_not_lt h2, fun _ => hr⟩⟩
      · rw [hr] at hx; exact absurd hx (by decide)
      · exact absurd hx h1
      · rw [hr] at hx; exact absurd hx (by decide)
      · exact absurd hx.1 h2

/-- C6: rollback only moves the group's active/deployed pointer — the
version history, lineage and baselines are untouched and `list(group)`
has identical length and contents. -/
theorem rollback_frame (st : RegistryState) (v : ℕ) (st2 : RegistryState)
    (h : rollback st v = .ok st2) :
    st2.versions = st.versions ∧ st2.versions.length = st.versions.length ∧
    st2.lineage = st.lineage ∧ st2.baselines = st.baselines ∧ st2.active = some v := by
  unfold rollback at h
  cases hf : findVersion st v with
  | none => rw [hf] at h; cases h
  | some r =>
    rw [hf] at h
    cases h
    exact ⟨rfl, rfl, rfl, rfl, rfl⟩

/-- Witness for C6 at a concrete registry state. -/
theorem rollback_frame_witness :
    ({ stw with active := some 2 } : RegistryState).versions = stw.versions ∧
    ({ stw with active := some 2 } : RegistryState).versions.length = stw.versions.length ∧
    ({ stw with active := some 2 } : RegistryState).lineage = stw.lineage ∧
    ({ stw with active := some 2 } : RegistryState).baselines = stw.baselines ∧
    ({ stw with active := some 2 } : RegistryState).active = some 2 :=
  rollback_frame stw 2 { stw with active := some 2 } (by rfl)

/-- Finding a version is stable under mapping a version-preserving
update over the history. -/
theorem find_map_update (l : List ModelVersionRec) (v : ℕ)
    (g : ModelVersionRec → ModelVersionRec) (hg : ∀ r, (g r).version = r.version) :
    ((l.map fun q => if q.version == v then g q else q).find? fun r => r.version == v) =
      (l.find? fun r => r.version == v).map g := by
  induction l with
  | nil => rfl
  | cons a l ih =>
    simp only [List.map_cons]
    by_cases ha : (a.version == v) = true
    · rw [if_pos ha]
      have h1 : ((g a :: l.map fun q => if q.version == v then g q else q).find?
          fun r => r.version == v) = some (g a) :=
        List.find?_cons_of_pos _ (by rw [hg]; exact ha)
      have h2 : ((a :: l).find? fun r => r.version == v) = some a :=
        List.find?_cons_of_pos _ ha
      rw [h1, h2]
      rfl
    · rw [if_neg ha]
      have h1 : ((a :: l.map fun q => if q.version == v then g q else q).find?
          fun r => r.version == v) =
          ((l.map fun q => if q.version == v then g q else q).find? fun r => r.version == v) :=
        List.find?_cons_of_neg _ (by simpa using ha)
      have h2 : ((a :: l).find? fun r => r.version == v) = (l.find? fun r => r.version == v) :=
        List.find?_cons_of_neg _ (by simpa using ha)
      rw [h1, h2]
      exact ih

/-- C3: the approval status only transitions pending→approved or
pending→rejected; approve on an already-decided version is a no-op
returning the existing approval record unchanged (reviewer and
timestamp are not overwritten); approving twice with the same decision
returns identical approval metadata both times. -/
theorem approve_idempotent :
    (∀ st v d rv now r a, findVersion st v = some r → r.approval = some a →
        approve st v d rv now = .ok (a, st)) ∧
    (∀ st v d rv now rv2 now2 a1 st1, approve st v d rv now = .ok (a1, st1) →
        approve st1 v d rv2 now2 = .ok (a1, st1)) ∧
    (∀ st v d rv now a1 st1, (st.versions.map fun r => r.version).Nodup →
        approve st v d rv now = .ok (a1, st1) → ∀ q ∈ st1.versions,
        ∃ q0 ∈ st.versions, q0.version = q.version ∧
          (q.approval = q0.approval ∨
            (q0.approval = none ∧
              q.approval = some { decision := d, reviewer := rv, decidedAt := now }))) := by
  refine ⟨?_, ?_, ?_⟩
  · intro st v d rv now r a hf ha
    simp [approve, hf, ha]
  · intro st v d rv now rv2 now2 a1 st1 h
    cases hf : findVersion st v with
    | none => simp only [approve, hf] at h; exact Except.noConfusion h
    | some r =>
      cases hr : r.approval with
      | some a =>
        simp only [approve, hf, hr, Except.ok.injEq, Prod.mk.injEq] at h
        obtain ⟨rfl, rfl⟩ := h
        simp only [approve, hf, hr]
      | none =>
        simp only [approve, hf, hr, Except.ok.injEq, Prod.mk.injEq] at h
        obtain ⟨rfl, rfl⟩ := h
        have hfind : findVersion
            { st with versions := st.versions.map fun q =>
                if q.version == v then
                  { q with approval := some { decision := d, reviewer := rv, decidedAt := now } }
                else q } v =
            some { r with approval := some { decision := d, reviewer := rv, decidedAt := now } } := by
          show ((st.versions.map fun q => if q.version == v then
              { q with approval := some { decision := d, reviewer := rv, decidedAt := now } }
            else q).find? fun q => q.version == v) = _
          rw [find_map_update st.versions v
            (fun q => { q with approval := some { decision := d, reviewer := rv, decidedAt := now } })
            (fun _ => rfl)]
          show (findVersion st v).map _ = _
          rw [hf]
          rfl
        simp only [approve, hfind]
  · intro st v d rv now a1 st1 hnd h q hq
    cases hf : findVersion st v with
    | none => simp only [approve, hf] at h; exact Except.noConfusion h
    | some r =>
      cases hr : r.approval with
      | some a =>
        simp only [approve, hf, hr, Except.ok.injEq, Prod.mk.injEq] at h
        obtain ⟨rfl, rfl⟩ := h
        exact ⟨q, hq, rfl, Or.inl rfl⟩
      | none =>
        simp only [approve, hf, hr, Except.ok.injEq, Prod.mk.injEq] at h
        obtain ⟨rfl, rfl⟩ := h
        simp only [List.mem_map] at hq
        obtain ⟨q0, hq0, hq0e⟩ := hq
        by_cases hv : (q0.version == v) = true
        · rw [if_pos hv] at hq0e
          have hf2 : (st.versions.find? fun x => x.version == v) = some r := hf
          have hrmem : r ∈ st.versions := List.mem_of_find?_eq_some hf2
          have hrv : (r.version == v) = true := by
            have h3 := List.find?_some hf2
            exact h3
          have hv2 : q0.version = v := by simpa using hv
          have hrv2 : r.version = v := by simpa using hrv
          have hq0r : q0 = r := by
            apply List.inj_on_of_nodup_map hnd hq0 hrmem
            show q0.version = r.version
            rw [hv2, hrv2]
          subst hq0e
          exact ⟨q0, hq0, rfl, Or.inr ⟨hq0r ▸ hr, rfl⟩⟩
        · rw [if_neg hv] at hq0e
          subst hq0e
          exact ⟨q0, hq0, rfl, Or.inl rfl⟩

/-- Witness for C3: on a concrete registry, re-approving the decided
version 1 returns the original record `aW` unchanged (also under a
different reviewer and timestamp and under the other decision). -/
theorem approve_idempotent_witness :
    approve stA 1 .approved "r2" 7 = .ok (aW, stA) ∧
    approve stA 1 .rejected "r3" 9 = .ok (aW, stA) :=
  ⟨approve_idempotent.2.1 stw 1 .approved "r1" 5 "r2" 7 aW stA (by rfl),
   approve_idempotent.1 stA 1 .rejected "r3" 9 { recW with approval := some aW } aW
     (by rfl) (by rfl)⟩

/-- C5: while any LineageRecord still references a baseline/dataset
version from a non-deleted model version, deleting it fails with the
dependency error (and, the operation returning no new state, removes
nothing); once every referencing model version is deleted, the deletion
succeeds and the version is gone. -/
theorem deleteBaseline_lineage :
    (∀ st bv lr, lr ∈ st.lineage → references lr bv = true →
        modelDeleted st lr.modelVersion = false →
        deleteBaseline st bv = .error .depend) ∧
    (∀ st bv, (∀ lr ∈ st.lineage, references lr bv = true →
          modelDeleted st lr.modelVersion = true) →
        deleteBaseline st bv =
            .ok { st with baselines := st.baselines.filter fun b => b != bv } ∧
          bv ∉ st.baselines.filter fun b => b != bv) := by
  constructor
  · intro st bv lr hmem href hdel
    have hcd : ¬ canDelete st bv = true := by
      intro hc
      have hlr := List.all_eq_true.mp hc lr hmem
      rw [href, hdel] at hlr
      exact absurd hlr (by decide)
    unfold deleteBaseline
    rw [if_neg hcd]
  · intro st bv hall
    have hcd : canDelete st bv = true := by
      apply List.all_eq_true.mpr
      intro lr hmem
      cases hre : references lr bv with
      | false => rfl
      | true => exact hall lr hmem hre
    refine ⟨by unfold deleteBaseline; rw [if_pos hcd], ?_⟩
    intro hmem
    rw [List.mem_filter] at hmem
    have := hmem.2
    simp at this

/-- Witness for C5 at concrete registry states: deleting baseline `bv`
of `stw` is blocked by the live lineage of version 1; after version 1
is deleted (`stwDel`), the deletion succeeds. -/
theorem deleteBaseline_lineage_witness :
    deleteBaseline stw "bv" = .error .depend ∧
    (deleteBaseline stwDel "bv" =
        .ok { stwDel with baselines := stwDel.baselines.filter fun b => b != "bv" } ∧
      "bv" ∉ stwDel.baselines.filter fun b => b != "bv") :=
  ⟨deleteBaseline_lineage.1 stw "bv"
      { modelVersion := 1, datasetVersion := "dv", baselineVersion := "bv" }
      (by decide) (by decide) (by rfl),
   deleteBaseline_lineage.2 stwDel "bv" (by decide)⟩

/-- A metric key has no value exactly when it is absent from the
mapping's key set. -/
theorem lookupMetric_eq_none (m : List (String × ℚ)) (k : String) :
    lookupMetric m k = none ↔ k ∉ metricKeys m := by
  unfold lookupMetric metricKeys
  constructor
  · intro h hk
    obtain ⟨p, hp, hpk⟩ := List.mem_map.mp hk
    cases hfind : m.find? fun q => q.1 == k with
    | some q => rw [hfind] at h; simp at h
    | none =>
      have hnone := List.find?_eq_none.mp hfind p hp
      rw [hpk] at hnone
      simp at hnone
  · intro h
    cases hfind : m.find? fun q => q.1 == k with
    | none => rfl
    | some q =>
      have hq := List.find?_some hfind
      have hqm := List.mem_of_find?_eq_some hfind
      exact absurd (List.mem_map.mpr ⟨q, hqm, by simpa using hq⟩) h

/-- Membership in a metrics diff, characterised by key membership and
the two lookups. -/
theorem mem_diffMetrics (ma mb : List (String × ℚ)) (e : MetricDiffEntry) :
    e ∈ diffMetrics ma mb ↔
      (e.key ∈ metricKeys ma ∨ e.key ∈ metricKeys mb) ∧
        e.left = lookupMetric ma e.key ∧ e.right = lookupMetric mb e.key := by
  obtain ⟨k, l, r⟩ := e
  unfold diffMetrics
  simp only [List.mem_map, List.mem_dedup, List.mem_append]
  constructor
  · rintro ⟨k2, hk2, he⟩
    simp only [MetricDiffEntry.mk.injEq] at he
    obtain ⟨rfl, rfl, rfl⟩ := he
    exact ⟨by simpa [metricKeys] using hk2, rfl, rfl⟩
  · rintro ⟨hk, rfl, rfl⟩
    exact ⟨k, by simpa [metricKeys] using hk, rfl⟩

/-- C7: compare reports every metric key present in either version's
metadata with explicit missing markers where a key exists in only one,
and it is symmetric: swapping the version arguments swaps which side
shows missing but not which keys are reported or flagged. -/
theorem compare_symmetric :
    (∀ st va vb ra rb diff, findVersion st va = some ra → findVersion st vb = some rb →
        compare st va vb = .ok diff →
        ((∀ k, (∃ e ∈ diff, e.key = k) ↔
            (k ∈ metricKeys ra.metrics ∨ k ∈ metricKeys rb.metrics)) ∧
          ∀ e ∈ diff, e.left = lookupMetric ra.metrics e.key ∧
            e.right = lookupMetric rb.metrics e.key ∧
            (e.left = none ↔ e.key ∉ metricKeys ra.metrics) ∧
            (e.right = none ↔ e.key ∉ metricKeys rb.metrics))) ∧
    (∀ st va vb diff1 diff2, compare st va vb = .ok diff1 → compare st vb va = .ok diff2 →
        ∀ k l r, (⟨k, l, r⟩ : MetricDiffEntry) ∈ diff1 ↔
          (⟨k, r, l⟩ : MetricDiffEntry) ∈ diff2) := by
  constructor
  · intro st va vb ra rb diff hfa hfb hcomp
    simp only [compare, hfa, hfb, Except.ok.injEq] at hcomp
    subst hcomp
    constructor
    · intro k
      constructor
      · rintro ⟨e, he, rfl⟩
        exact ((mem_diffMetrics _ _ e).mp he).1
      · intro hk
        exact ⟨⟨k, lookupMetric ra.metrics k, lookupMetric rb.metrics k⟩,
          (mem_diffMetrics _ _ _).mpr ⟨hk, rfl, rfl⟩, rfl⟩
    · intro e he
      obtain ⟨hk, h1, h2⟩ := (mem_diffMetrics _ _ e).mp he
      exact ⟨h1, h2, by rw [h1]; exact lookupMetric_eq_none _ _,
        by rw [h2]; exact lookupMetric_eq_none _ _⟩
  · intro st va vb diff1 diff2 hcomp1 hcomp2 k l r
    cases hfa : findVersion st va with
    | none =>
      simp only [compare, hfa] at hcomp1
      exact Except.noConfusion hcomp1
    | some ra =>
      cases hfb : findVersion st vb with
      | none =>
        simp only [compare, hfa, hfb] at hcomp1
        exact Except.noConfusion hcomp1
      | some rb =>
        simp only [compare, hfa, hfb, Except.ok.injEq] at hcomp1 hcomp2
        subst hcomp1
        subst hcomp2
        rw [mem_diffMetrics, mem_diffMetrics]
        constructor
        · rintro ⟨h1, h2, h3⟩
          exact ⟨h1.symm, h3, h2⟩
        · rintro ⟨h1, h2, h3⟩
          exact ⟨h1.symm, h3, h2⟩

/-- Witness for C7 at the concrete registry `stw`: the key reported
present-left/missing-right in `compare 1 2` is reported missing-left/
present-right in `compare 2 1`. -/
theorem compare_symmetric_witness :
    (⟨"accuracy", some (9 / 10), none⟩ : MetricDiffEntry) ∈
        diffMetrics recW.metrics recW2.metrics ↔
      (⟨"accuracy", none, some (9 / 10)⟩ : MetricDiffEntry) ∈
        diffMetrics recW2.metrics recW.metrics :=
  compare_symmetric.2 stw 1 2 (diffMetrics recW.metrics recW2.metrics)
    (diffMetrics recW2.metrics recW.metrics) (by rfl) (by rfl) "accuracy" (some (9 / 10)) none

/-- The epsilon floor is positive. -/
theorem epsFloor_pos : (0 : ℚ) < epsFloor := by norm_num [epsFloor]

/-- Floored proportions are at least the epsilon floor (hence positive:
the logarithm argument is never 0 and no division by zero occurs). -/
theorem floorProp_ge (q : ℚ) : epsFloor ≤ floorProp q := le_max_right q epsFloor

/-- Every PSI summand is nonnegative: the factor `cur − base` and the
logarithm of the floored ratio always share their sign. -/
theorem psiTerm_nonneg (L : LogModel) (b c : ℚ) : 0 ≤ psiTerm L b c := by
  unfold psiTerm
  have hbpos : (0 : ℚ) < floorProp b := lt_of_lt_of_le epsFloor_pos (floorProp_ge b)
  rcases le_total b c with h | h
  · apply mul_nonneg (by linarith)
    have hm : floorProp b ≤ floorProp c := max_le_max h le_rfl
    have hr : (1 : ℚ) ≤ floorProp c / floorProp b := (one_le_div hbpos).mpr hm
    have := L.mono 1 (floorProp c / floorProp b) hr
    rw [L.log_one] at this
    exact this
  · rw [mul_nonneg_iff]
    refine Or.inr ⟨by linarith, ?_⟩
    have hm : floorProp c ≤ floorProp b := max_le_max h le_rfl
    have hr : floorProp c / floorProp b ≤ 1 := (div_le_one hbpos).mpr hm
    have := L.mono (floorProp c / floorProp b) 1 hr
    rw [L.log_one] at this
    exact this

/-- PSI is nonnegative for any pair of proportion lists. -/
theorem psi_nonneg (L : LogModel) : ∀ bs cs : List ℚ, 0 ≤ psi L bs cs
  | [], [] => le_refl 0
  | [], _ :: _ => le_refl 0
  | _ :: _, [] => le_refl 0
  | b :: bs, c :: cs => add_nonneg (psiTerm_nonneg L b c) (psi_nonneg L bs cs)

/-- Every chi-square summand is nonnegative (and its denominator is
floored to `epsFloor`, so positive). -/
theorem chiTerm_nonneg (cur exp : ℚ) : 0 ≤ chiTerm cur exp :=
  div_nonneg (sq_nonneg _) (le_trans (le_of_lt epsFloor_pos) (le_max_right _ _))

/-- The chi-square statistic is nonnegative for any input. -/
theorem chiSq_nonneg (vcs : List (String × ℕ)) (cur : List String) : 0 ≤ chiSq vcs cur := by
  unfold chiSq
  apply List.sum_nonneg
  intro x hx
  obtain ⟨p, _, rfl⟩ := List.mem_map.mp hx
  exact chiTerm_nonneg _ _

/-- The per-feature drift statistic is nonnegative for either feature
kind. -/
theorem featureStat_nonneg (L : LogModel) (batch : Dataset) (fs : FeatureStats) :
    0 ≤ featureStat L batch fs := by
  obtain ⟨nm, miss, uc, kind⟩ := fs
  cases kind with
  | numeric mean varp mn mx width counts => exact psi_nonneg L _ _
  | categorical vcs => exact chiSq_nonneg _ _

/-- C8: for every input batch and baseline, the PSI statistic of every
numeric feature and the chi-square statistic of every categorical
feature are ≥ 0, and the epsilon flooring keeps every floored
proportion at least the positive `epsFloor`, so the logarithm is never
taken of 0 and no division by zero occurs. -/
theorem drift_statistics_nonneg :
    (∀ (L : LogModel) (bs cs : List ℚ), 0 ≤ psi L bs cs) ∧
    (∀ (vcs : List (String × ℕ)) (cur : List String), 0 ≤ chiSq vcs cur) ∧
    (∀ (L : LogModel) (batch : Dataset) (fs : FeatureStats), 0 ≤ featureStat L batch fs) ∧
    (∀ q : ℚ, 0 < epsFloor ∧ epsFloor ≤ floorProp q) :=
  ⟨psi_nonneg, chiSq_nonneg, featureStat_nonneg, fun q => ⟨epsFloor_pos, floorProp_ge q⟩⟩

/-- PSI of a proportion list against itself is exactly 0: every
summand carries the factor `cur − base = 0`. -/
theorem psi_self (L : LogModel) : ∀ ps : List ℚ, psi L ps ps = 0
  | [] => rfl
  | p :: ps => by
    show psiTerm L p p + psi L ps ps = 0
    rw [psi_self L ps, add_zero]
    unfold psiTerm
    rw [sub_self, zero_mul]

/-- The frequencies of a value-counts mapping sum to the number of
observed values. -/
theorem valueCounts_sum (vs : List String) :
    ((valueCounts vs).map fun p => p.2).sum = vs.length := by
  unfold valueCounts
  rw [List.map_map]
  exact List.sum_map_count_dedup_eq_length vs

/-- Chi-square of a value distribution against itself is exactly 0:
every observed count equals its expected count. -/
theorem chiSq_self (vs : List String) : chiSq (valueCounts vs) vs = 0 := by
  unfold chiSq
  apply List.sum_eq_zero
  intro x hx
  obtain ⟨p, hp, rfl⟩ := List.mem_map.mp hx
  obtain ⟨s, hs, rfl⟩ := List.mem_map.mp hp
  rw [valueCounts_sum]
  by_cases h0 : vs.length = 0
  · rw [List.eq_nil_of_length_eq_zero h0] at hs
    exact absurd hs (List.not_mem_nil s)
  · unfold propOf
    rw [if_neg h0]
    rw [div_mul_cancel₀ (vs.count s : ℚ) (Nat.cast_ne_zero.mpr h0)]
    unfold chiTerm
    rw [sub_self, zero_pow (by norm_num : (2 : ℕ) ≠ 0), zero_div]

/-- Unfolding equation: the statistic of a numeric feature is its
PSI. -/
theorem featureStat_numeric (L : LogModel) (batch : Dataset) (nm : String) (miss uc : ℕ)
    (mean varp mn mx width : ℚ) (counts : List ℕ) :
    featureStat L batch ⟨nm, miss, uc, .numeric mean varp mn mx width counts⟩ =
      psi L (normalize counts)
        (normalize (countBuckets mn width (numericVals (batchCells batch nm)))) := rfl

/-- Unfolding equation: the statistic of a categorical feature is its
chi-square. -/
theorem featureStat_categorical (L : LogModel) (batch : Dataset) (nm : String) (miss uc : ℕ)
    (vcs : List (String × ℕ)) :
    featureStat L batch ⟨nm, miss, uc, .categorical vcs⟩ =
      chiSq vcs (catVals (batchCells batch nm)) := rfl

/-- A feature built from a dataset has drift statistic 0 against that
same dataset. -/
theorem buildFeature_stat_self (L : LogModel) (d : Dataset) (nm : String) (ft : FType)
    (fs : FeatureStats) (h : buildFeature d nm ft = .ok fs) :
    featureStat L d fs = 0 := by
  unfold buildFeature at h
  split at h
  · exact Except.noConfusion h
  · rename_i col hc
    have hbc : batchCells d nm = col.cells := by
      unfold batchCells
      rw [hc]
    split at h
    · split at h
      · exact Except.noConfusion h
      · injection h with h2
        subst h2
        rw [featureStat_numeric, hbc]
        exact psi_self L _
    · split at h
      · exact Except.noConfusion h
      · injection h with h2
        subst h2
        rw [featureStat_categorical, hbc]
        exact chiSq_self _

/-- Every feature produced by `buildFeatures` has drift statistic 0
against the dataset it was built from. -/
theorem buildFeatures_stat_self (L : LogModel) (d : Dataset) :
    ∀ (fts : List (String × FType)) (l : List FeatureStats),
      buildFeatures d fts = .ok l → ∀ fs ∈ l, featureStat L d fs = 0 := by
  intro fts
  induction fts with
  | nil =>
    intro l h fs hfs
    injection h with h2
    subst h2
    exact absurd hfs (List.not_mem_nil fs)
  | cons p rest ih =>
    obtain ⟨nm, ft⟩ := p
    intro l h fs hfs
    cases hbf : buildFeature d nm ft with
    | error e =>
      rw [show buildFeatures d ((nm, ft) :: rest) =
        (buildFeature d nm ft).bind fun f =>
          (buildFeatures d rest).bind fun fl => .ok (f :: fl) from rfl, hbf] at h
      exact Except.noConfusion h
    | ok f =>
      rw [show buildFeatures d ((nm, ft) :: rest) =
        (buildFeature d nm ft).bind fun f =>
          (buildFeatures d rest).bind fun fl => .ok (f :: fl) from rfl, hbf] at h
      cases hbfs : buildFeatures d rest with
      | error e =>
        rw [show (Except.ok f).bind (fun f =>
            (buildFeatures d rest).bind fun fl => Except.ok (f :: fl)) =
          (buildFeatures d rest).bind fun fl => Except.ok (f :: fl) from rfl, hbfs] at h
        exact Except.noConfusion h
      | ok l2 =>
        rw [show (Except.ok f).bind (fun f =>
            (buildFeatures d rest).bind fun fl => Except.ok (f :: fl)) =
          (buildFeatures d rest).bind fun fl => Except.ok (f :: fl) from rfl, hbfs] at h
        injection h with h2
        subst h2
        rcases List.mem_cons.mp hfs with rfl | hmem
        · exact buildFeature_stat_self L d nm ft fs hbf
        · exact ih l2 hbfs fs hmem

/-- A fold of `max` over a list of zeros is zero. -/
theorem foldr_max_zero (l : List ℚ) (h : ∀ x ∈ l, x = 0) : l.foldr max 0 = 0 := by
  induction l with
  | nil => rfl
  | cons a l ih =>
    rw [List.foldr_cons, ih fun x hx => h x (List.mem_cons_of_mem a hx),
      h a (List.mem_cons_self a l)]
    exact max_self 0

/-- Every default chi-square critical value is positive. -/
theorem defaultChiCritical_pos (df : ℕ) : 0 < defaultChiCritical df := by
  unfold defaultChiCritical
  split_ifs <;> positivity

/-- Every default per-feature threshold is nonnegative. -/
theorem featureThreshold_default_nonneg (fs : FeatureStats) :
    0 ≤ featureThreshold defaultConfig fs := by
  obtain ⟨nm, miss, uc, kind⟩ := fs
  cases kind with
  | numeric mean varp mn mx width counts =>
    norm_num [featureThreshold, defaultConfig]
  | categorical vcs => exact le_of_lt (defaultChiCritical_pos _)

/-- C4: drift detection of a dataset against the baseline built from
that same dataset yields aggregate drift score exactly 0 and an empty
features-with-drift set. -/
theorem detectDrift_self_zero (L : LogModel) (d : Dataset) (fts : List (String × FType))
    (dv : String) (ts ts2 : ℕ) (b : BaselineStatistics)
    (h : buildBaseline d fts dv ts = .ok b) :
    (detectDrift L d b defaultConfig ts2).score = 0 ∧
    (detectDrift L d b defaultConfig ts2).featuresWithDrift = [] := by
  unfold buildBaseline at h
  split at h
  · exact Except.noConfusion h
  · cases hbf : buildFeatures d fts with
    | error e =>
      rw [hbf] at h
      exact Except.noConfusion h
    | ok feats =>
      rw [hbf] at h
      injection h with h2
      subst h2
      have hzero : ∀ fs ∈ feats, featureStat L d fs = 0 :=
        buildFeatures_stat_self L d fts feats hbf
      have hfilter : (feats.map (featureDetail L d defaultConfig)).filter
          (fun dt => decide (dt.threshold < dt.stat)) = [] := by
        rw [List.filter_eq_nil_iff]
        intro dt hdt
        obtain ⟨fs, hfs, rfl⟩ := List.mem_map.mp hdt
        simp only [featureDetail, decide_eq_true_eq]
        rw [hzero fs hfs]
        exact not_lt_of_le (featureThreshold_default_nonneg fs)
      constructor
      · show aggregateScore (feats.map (featureDetail L d defaultConfig)) = 0
        unfold aggregateScore
        apply foldr_max_zero
        intro x hx
        rw [List.map_map] at hx
        obtain ⟨fs, hfs, rfl⟩ := List.mem_map.mp hx
        exact hzero fs hfs
      · show ((driftedPairs (feats.map (featureDetail L d defaultConfig))).map fun p => p.2) = []
        unfold driftedPairs
        rw [hfilter]
        rfl

/-- C1: a numeric feature appears in the report's features_with_drift
set exactly when its PSI (computed over the reused baseline bucket
edges against the current batch) exceeds its configurable per-feature
threshold, whose default value is 0.2 = 1/5. -/
theorem drifted_iff_psi_exceeds (L : LogModel) (batch : Dataset) (b : BaselineStatistics)
    (ts : ℕ) (fs : FeatureStats) (mean varp mn mx width : ℚ) (counts : List ℕ)
    (hnd : (b.features.map fun g => g.name).Nodup)
    (hmem : fs ∈ b.features)
    (hkind : fs.kind = .numeric mean varp mn mx width counts) :
    (fs.name ∈ (detectDrift L batch b defaultConfig ts).featuresWithDrift ↔
      defaultConfig.psiThreshold fs.name <
        psi L (normalize counts)
          (normalize (countBuckets mn width (numericVals (batchCells batch fs.name))))) ∧
    defaultConfig.psiThreshold fs.name = 1 / 5 := by
  refine ⟨?_, rfl⟩
  obtain ⟨nm, miss, uc, kind⟩ := fs
  have hkind2 : kind = StatKind.numeric mean varp mn mx width counts := hkind
  subst hkind2
  show nm ∈ ((driftedPairs (b.features.map (featureDetail L batch defaultConfig))).map
      fun p => p.2) ↔ _
  unfold driftedPairs
  rw [List.Perm.mem_iff ((List.perm_insertionSort sevLe _).map fun p => p.2)]
  rw [List.map_map]
  constructor
  · intro hx
    obtain ⟨dt, hdt, hdtn⟩ := List.mem_map.mp hx
    obtain ⟨hdtmem, hpred⟩ := List.mem_filter.mp hdt
    obtain ⟨g, hg, rfl⟩ := List.mem_map.mp hdtmem
    have hgname : g.name = nm := hdtn
    have hgeq : g = ⟨nm, miss, uc, StatKind.numeric mean varp mn mx width counts⟩ := by
      apply List.inj_on_of_nodup_map hnd hg hmem
      exact hgname
    subst hgeq
    exact of_decide_eq_true hpred
  · intro hlt
    apply List.mem_map.mpr
    refine ⟨featureDetail L batch defaultConfig
      ⟨nm, miss, uc, StatKind.numeric mean varp mn mx width counts⟩, ?_, rfl⟩
    apply List.mem_filter.mpr
    exact ⟨List.mem_map.mpr ⟨_, hmem, rfl⟩, decide_eq_true hlt⟩

/-- Witness for C1: the single numeric feature of the concrete
baseline `BN`, checked against batch `D2`. -/
theorem drifted_iff_psi_exceeds_witness :
    (FN.name ∈ (detectDrift Lw D2 BN defaultConfig 0).featuresWithDrift ↔
      defaultConfig.psiThreshold FN.name <
        psi Lw (normalize [2])
          (normalize (countBuckets 0 0 (numericVals (batchCells D2 FN.name))))) ∧
    defaultConfig.psiThreshold FN.name = 1 / 5 :=
  drifted_iff_psi_exceeds Lw D2 BN 0 FN 0 0 0 0 0 [2] (by decide) (by decide) rfl

/-- Witness for C4 at the concrete dataset `D2`: detecting drift of
`D2` against the baseline `B2` that `buildBaseline` produces from `D2`
gives score 0 and no drifted features. -/
theorem detectDrift_self_zero_witness :
    (detectDrift Lw D2 B2 defaultConfig 1).score = 0 ∧
    (detectDrift Lw D2 B2 defaultConfig 1).featuresWithDrift = [] :=
  detectDrift_self_zero Lw D2 [("c", .categorical)] "v" 0 1 B2 (by rfl)

/-- The aggregate maximum is invariant under permutation of the
statistics. -/
theorem foldr_max_perm (l1 l2 : List ℚ) (h : l1.Perm l2) :
    l1.foldr max 0 = l2.foldr max 0 := by
  induction h with
  | nil => rfl
  | cons x h ih => rw [List.foldr_cons, List.foldr_cons, ih]
  | swap x y l => exact max_left_comm y x _
  | trans h1 h2 ih1 ih2 => exact ih1.trans ih2

/-- Sorting by severity is invariant under permutation of the input:
the severity order is total, transitive and antisymmetric. -/
theorem insertionSort_eq_of_perm (l1 l2 : List (ℚ × String)) (h : l1.Perm l2) :
    List.insertionSort sevLe l1 = List.insertionSort sevLe l2 := by
  apply List.eq_of_perm_of_sorted (r := sevLe)
  · exact (List.perm_insertionSort sevLe l1).trans
      (h.trans (List.perm_insertionSort sevLe l2).symm)
  · exact List.sorted_insertionSort sevLe l1
  · exact List.sorted_insertionSort sevLe l2

/-- C9: `buildBaseline` is deterministic — identical input dataset and
feature-type list yield identical statistics apart from the stored
timestamp field — and drift detection is independent of the
per-feature computation order: permuting the baseline's feature list
changes neither the aggregate score nor the ordered features_with_drift
set. -/
theorem drift_deterministic :
    (∀ (d : Dataset) (fts : List (String × FType)) (dv : String) (t1 t2 : ℕ),
      (buildBaseline d fts dv t1).map (fun b => (b.datasetVersion, b.features)) =
        (buildBaseline d fts dv t2).map fun b => (b.datasetVersion, b.features)) ∧
    (∀ (L : LogModel) (batch : Dataset) (ts : ℕ) (dv : String) (tb : ℕ)
        (fl fl2 : List FeatureStats), fl.Perm fl2 →
      (detectDrift L batch ⟨dv, tb, fl⟩ defaultConfig ts).score =
          (detectDrift L batch ⟨dv, tb, fl2⟩ defaultConfig ts).score ∧
        (detectDrift L batch ⟨dv, tb, fl⟩ defaultConfig ts).featuresWithDrift =
          (detectDrift L batch ⟨dv, tb, fl2⟩ defaultConfig ts).featuresWithDrift) := by
  constructor
  · intro d fts dv t1 t2
    unfold buildBaseline
    split
    · rfl
    · cases hbf : buildFeatures d fts <;> rfl
  · intro L batch ts dv tb fl fl2 hperm
    have hdet : (fl.map (featureDetail L batch defaultConfig)).Perm
        (fl2.map (featureDetail L batch defaultConfig)) := hperm.map _
    constructor
    · show aggregateScore (fl.map (featureDetail L batch defaultConfig)) =
        aggregateScore (fl2.map (featureDetail L batch defaultConfig))
      unfold aggregateScore
      exact foldr_max_perm _ _ (hdet.map _)
    · show ((driftedPairs (fl.map (featureDetail L batch defaultConfig))).map fun p => p.2) =
        ((driftedPairs (fl2.map (featureDetail L batch defaultConfig))).map fun p => p.2)
      unfold driftedPairs
      rw [insertionSort_eq_of_perm _ _ ((hdet.filter _).map _)]

/-- Witness for C9: swapping the two features of a concrete baseline
leaves score and drifted set unchanged. -/
theorem drift_deterministic_witness :
    (detectDrift Lw D2 ⟨"v", 0, [FN, FN2]⟩ defaultConfig 1).score =
        (detectDrift Lw D2 ⟨"v", 0, [FN2, FN]⟩ defaultConfig 1).score ∧
      (detectDrift Lw D2 ⟨"v", 0, [FN, FN2]⟩ defaultConfig 1).featuresWithDrift =
        (detectDrift Lw D2 ⟨"v", 0, [FN2, FN]⟩ defaultConfig 1).featuresWithDrift :=
  drift_deterministic.2 Lw D2 1 "v" 0 [FN, FN2] [FN2, FN] (by decide)

/-- An element of a list with one position overwritten is an original
element or the new value. -/
theorem mem_set_or (l : List RegProc) (i : ℕ) (b a : RegProc) (h : a ∈ l.set i b) :
    a ∈ l ∨ a = b := by
  induction l generalizing i with
  | nil => exact absurd h (List.not_mem_nil a)
  | cons x l ih =>
    cases i with
    | zero =>
      rw [List.set_cons_zero] at h
      rcases List.mem_cons.mp h with rfl | hm
      · exact Or.inr rfl
      · exact Or.inl (List.mem_cons_of_mem x hm)
    | succ n =>
      rw [List.set_cons_succ] at h
      rcases List.mem_cons.mp h with rfl | hm
      · exact Or.inl (List.mem_cons_self _ _)
      · rcases ih n hm with h1 | h2
        · exact Or.inl (List.mem_cons_of_mem x h1)
        · exact Or.inr h2

/-- Indexing into a list successfully yields an element. -/
theorem mem_of_getElem_opt (l : List RegProc) (i : ℕ) (p : RegProc) (h : l[i]? = some p) :
    p ∈ l := by
  induction l generalizing i with
  | nil => exact Option.noConfusion h
  | cons x l ih =>
    cases i with
    | zero =>
      rw [List.getElem?_cons_zero] at h
      injection h with h2
      subst h2
      exact List.mem_cons_self _ _
    | succ n =>
      rw [List.getElem?_cons_succ] at h
      exact List.mem_cons_of_mem x (ih n h)

/-- Overwriting a process with one of equal outcome leaves the list of
successful versions unchanged. -/
theorem filterMap_set_eq (l : List RegProc) (i : ℕ) (p q : RegProc)
    (hi : l[i]? = some p) (hpq : procOk q = procOk p) :
    (l.set i q).filterMap procOk = l.filterMap procOk := by
  induction l generalizing i with
  | nil => rfl
  | cons a l ih =>
    cases i with
    | zero =>
      rw [List.getElem?_cons_zero] at hi
      injection hi with hi2
      subst hi2
      rw [List.set_cons_zero, List.filterMap_cons, List.filterMap_cons, hpq]
    | succ n =>
      rw [List.getElem?_cons_succ] at hi
      rw [List.set_cons_succ, List.filterMap_cons, List.filterMap_cons, ih n hi]

/-- Overwriting an unfinished process with a successful one adds
exactly its version to the successes, up to order. -/
theorem filterMap_set_perm (l : List RegProc) (i : ℕ) (p q : RegProc) (v : ℕ)
    (hi : l[i]? = some p) (hp : procOk p = none) (hq : procOk q = some v) :
    ((l.set i q).filterMap procOk).Perm (v :: l.filterMap procOk) := by
  induction l generalizing i with
  | nil => exact Option.noConfusion hi
  | cons a l ih =>
    cases i with
    | zero =>
      rw [List.getElem?_cons_zero] at hi
      injection hi with hi2
      subst hi2
      rw [List.set_cons_zero, List.filterMap_cons, List.filterMap_cons, hp, hq]
    | succ n =>
      rw [List.getElem?_cons_succ] at hi
      rw [List.set_cons_succ, List.filterMap_cons, List.filterMap_cons]
      cases hpa : procOk a with
      | none => exact ih n hi
      | some w => exact ((ih n hi).cons w).trans (List.Perm.swap v w _)

/-- Case analysis of one atomic register action: either the shared
counter and the call's outcome are unchanged (and a ConflictError
outcome was either already present or has just been surfaced with the
budget at 0), or the action is the successful compare-and-swap, which
bumps the counter and hands out version `counter + 1`. -/
theorem procStep_cases (c : ℕ) (p : RegProc) :
    ((procStep c p).1 = c ∧ procOk (procStep c p).2 = procOk p ∧
        ((procStep c p).2.result = some .conflict →
          (procStep c p).2.attemptsLeft = 0 ∨
            (p.result = some .conflict ∧ (procStep c p).2.attemptsLeft = p.attemptsLeft))) ∨
    ((procStep c p).1 = c + 1 ∧ procOk p = none ∧
        procOk (procStep c p).2 = some (c + 1)) := by
  cases hres : p.result with
  | some r =>
    have he : procStep c p = (c, p) := by simp only [procStep, hres]
    rw [he]
    exact Or.inl ⟨rfl, rfl, fun hc => Or.inr ⟨hres.symm.trans hc, rfl⟩⟩
  | none =>
    cases hsnap : p.snapshot with
    | none =>
      cases hatt : p.attemptsLeft with
      | zero =>
        have he : procStep c p = (c, { p with result := some .conflict }) := by
          simp only [procStep, hres, hsnap, hatt]
        rw [he]
        refine Or.inl ⟨rfl, ?_, fun _ => Or.inl ?_⟩
        · show procOk { p with result := some .conflict } = procOk p
          simp only [procOk, hres]
        · show ({ p with result := some RegResult.conflict }).attemptsLeft = 0
          exact hatt
      | succ a =>
        have he : procStep c p = (c, { p with snapshot := some c, attemptsLeft := a }) := by
          simp only [procStep, hres, hsnap, hatt]
        rw [he]
        refine Or.inl ⟨rfl, rfl, ?_⟩
        intro hc
        have h4 : p.result = some .conflict := hc
        rw [hres] at h4
        exact Option.noConfusion h4
    | some s =>
      by_cases hcs : c = s
      · subst hcs
        have he : procStep c p =
            (c + 1, { p with snapshot := none, result := some (.ok (c + 1)) }) := by
          simp only [procStep, hres, hsnap]
          simp
        rw [he]
        refine Or.inr ⟨rfl, ?_, rfl⟩
        simp only [procOk, hres]
      · have he : procStep c p = (c, { p with snapshot := none }) := by
          simp only [procStep, hres, hsnap, if_neg hcs]
        rw [he]
        refine Or.inl ⟨rfl, rfl, ?_⟩
        intro hc
        have h4 : p.result = some .conflict := hc
        rw [hres] at h4
        exact Option.noConfusion h4

/-- One scheduled atomic action preserves the registration invariant:
the counter leads the initial counter by exactly the number of
successes, the successes carry exactly the contiguous version range
above the initial counter, and a surfaced ConflictError has exhausted
its attempt budget. -/
theorem sysStep_inv (c0 : ℕ) (sys : RegSystem) (i : ℕ)
    (h1 : sys.counter = c0 + (okVersions sys).length)
    (h2 : (okVersions sys).Perm
      ((List.range (okVersions sys).length).map fun j => c0 + 1 + j))
    (h3 : ∀ p ∈ sys.procs, p.result = some .conflict → p.attemptsLeft = 0) :
    (sysStep sys i).counter = c0 + (okVersions (sysStep sys i)).length ∧
    (okVersions (sysStep sys i)).Perm
      ((List.range (okVersions (sysStep sys i)).length).map fun j => c0 + 1 + j) ∧
    ∀ p ∈ (sysStep sys i).procs, p.result = some .conflict → p.attemptsLeft = 0 := by
  unfold sysStep
  cases hi : sys.procs[i]? with
  | none => exact ⟨h1, h2, h3⟩
  | some p =>
    rcases procStep_cases sys.counter p with ⟨hc, hok, hconf⟩ | ⟨hc, hpnone, hok⟩
    · have hfm : ((sys.procs.set i (procStep sys.counter p).2).filterMap procOk) =
          sys.procs.filterMap procOk :=
        filterMap_set_eq sys.procs i p _ hi hok
      refine ⟨?_, ?_, ?_⟩
      · show (procStep sys.counter p).1 =
          c0 + ((sys.procs.set i (procStep sys.counter p).2).filterMap procOk).length
        rw [hc, hfm]
        exact h1
      · show ((sys.procs.set i (procStep sys.counter p).2).filterMap procOk).Perm
          ((List.range
            ((sys.procs.set i (procStep sys.counter p).2).filterMap procOk).length).map
            fun j => c0 + 1 + j)
        rw [hfm]
        exact h2
      · intro q hq hqc
        rcases mem_set_or _ _ _ _ hq with hmem | rfl
        · exact h3 q hmem hqc
        · rcases hconf hqc with hz | ⟨hpc, hattEq⟩
          · exact hz
          · rw [hattEq]
            exact h3 p (mem_of_getElem_opt _ _ _ hi) hpc
    · have hfm : (((sys.procs.set i (procStep sys.counter p).2).filterMap procOk)).Perm
          ((sys.counter + 1) :: sys.procs.filterMap procOk) :=
        filterMap_set_perm sys.procs i p _ (sys.counter + 1) hi hpnone hok
      have e1 : ((sys.procs.set i (procStep sys.counter p).2).filterMap procOk).length =
          (okVersions sys).length + 1 := by
        rw [hfm.length_eq]
        rfl
      refine ⟨?_, ?_, ?_⟩
      · show (procStep sys.counter p).1 =
          c0 + ((sys.procs.set i (procStep sys.counter p).2).filterMap procOk).length
        rw [hc, e1]
        omega
      · show ((sys.procs.set i (procStep sys.counter p).2).filterMap procOk).Perm
          ((List.range
            ((sys.procs.set i (procStep sys.counter p).2).filterMap procOk).length).map
            fun j => c0 + 1 + j)
        rw [e1]
        refine hfm.trans ?_
        refine (h2.cons (sys.counter + 1)).trans ?_
        have hcnt : sys.counter + 1 = c0 + 1 + (okVersions sys).length := by omega
        rw [hcnt, List.range_succ, List.map_append]
        exact @List.perm_append_comm ℕ [c0 + 1 + (okVersions sys).length]
          ((List.range (okVersions sys).length).map fun j => c0 + 1 + j)
      · intro q hq hqc
        rcases mem_set_or _ _ _ _ hq with hmem | rfl
        · exact h3 q hmem hqc
        · have hnone : procOk ((procStep sys.counter p).2) = none := by
            unfold procOk
            rw [hqc]
          rw [hok] at hnone
          exact Option.noConfusion hnone

/-- Running any interleaving preserves the registration invariant. -/
theorem runSched_inv (c0 : ℕ) : ∀ (σ : List ℕ) (sys : RegSystem),
    sys.counter = c0 + (okVersions sys).length →
    (okVersions sys).Perm ((List.range (okVersions sys).length).map fun j => c0 + 1 + j) →
    (∀ p ∈ sys.procs, p.result = some .conflict → p.attemptsLeft = 0) →
    (runSched sys σ).counter = c0 + (okVersions (runSched sys σ)).length ∧
      (okVersions (runSched sys σ)).Perm
        ((List.range (okVersions (runSched sys σ)).length).map fun j => c0 + 1 + j) ∧
      ∀ p ∈ (runSched sys σ).procs, p.result = some .conflict → p.attemptsLeft = 0
  | [], _ => fun h1 h2 h3 => ⟨h1, h2, h3⟩
  | i :: rest, sys => fun h1 h2 h3 => by
    obtain ⟨g1, g2, g3⟩ := sysStep_inv c0 sys i h1 h2 h3
    exact runSched_inv c0 rest (sysStep sys i) g1 g2 g3

/-- C2: under every interleaving of N concurrent register calls on one
group, the successful calls receive exactly the contiguous, gap-free,
duplicate-free range of version identifiers above the initial counter
(in particular no two registrations ever receive the same identifier),
and every call that surfaces ConflictError has exhausted its bounded
internal retry budget. -/
theorem register_concurrent_versions (c0 n attempts : ℕ) (σ : List ℕ) :
    (runSched (initSystem c0 n attempts) σ).counter =
        c0 + (okVersions (runSched (initSystem c0 n attempts) σ)).length ∧
      (okVersions (runSched (initSystem c0 n attempts) σ)).Perm
        ((List.range (okVersions (runSched (initSystem c0 n attempts) σ)).length).map
          fun j => c0 + 1 + j) ∧
      (okVersions (runSched (initSystem c0 n attempts) σ)).Nodup ∧
      ∀ p ∈ (runSched (initSystem c0 n attempts) σ).procs,
        p.result = some .conflict → p.attemptsLeft = 0 := by
  have hinit : okVersions (initSystem c0 n attempts) = [] := by
    unfold okVersions initSystem
    induction n with
    | zero => rfl
    | succ m ih =>
      rw [List.replicate_succ, List.filterMap_cons]
      exact ih
  obtain ⟨g1, g2, g3⟩ := runSched_inv c0 σ (initSystem c0 n attempts)
    (by rw [hinit]; rfl)
    (by rw [hinit]; exact List.Perm.refl _)
    (by
      intro p hp hc
      have hrep := List.eq_of_mem_replicate hp
      rw [hrep] at hc
      exact Option.noConfusion hc)
  refine ⟨g1, g2, ?_, g3⟩
  exact g2.nodup_iff.mpr
    ((List.nodup_range _).map fun a b hab => by omega)

/-- Witness for C2: a concrete interleaving of three register calls
with retry budget 2 hands out duplicate-free versions. -/
theorem register_concurrent_versions_witness :
    (okVersions (runSched (initSystem 3 3 2) [0, 0, 1, 1, 2, 2])).Nodup :=
  (register_concurrent_versions 3 3 2 [0, 0, 1, 1, 2, 2]).2.2.1

/-- Witness for C8 at a concrete feature, batch and log model. -/
theorem drift_statistics_nonneg_witness :
    0 ≤ featureStat Lw D2 FN ∧ 0 < epsFloor :=
  ⟨drift_statistics_nonneg.2.2.1 Lw D2 FN, (drift_statistics_nonneg.2.2.2 0).1⟩

/-- Witness for C10 at concrete probabilities in each band. -/
theorem riskLevel_trichotomy_witness :
    riskLevel (8 / 10) = .high ∧ riskLevel (1 / 2) = .medium ∧ riskLevel (1 / 10) = .low :=
  ⟨(riskLevel_trichotomy (8 / 10)).1.mpr (by norm_num),
   (riskLevel_trichotomy (1 / 2)).2.1.mpr (by norm_num),
   (riskLevel_trichotomy (1 / 10)).2.2.mpr (by norm_num)⟩

end MLOps
